import Mathlib

/-!
Verification development for the fidanka fiducial-line pipeline
(src/fidanka/fiducial/fiducial.py).

Numbers are modelled as rationals (the source computes with float64; no claim
below depends on rounding).  Raised Python exceptions are modelled with
`Except FidErr`.  Randomness (`np.random.default_rng().normal`) is external to
the program logic and is passed in explicitly as the `baseSampling` argument,
exactly the shape the source draws: one `(List ℚ × List ℚ)` per Monte Carlo
run, one standard-normal sample per star per filter.
-/

namespace Fidanka

set_option allowUnsafeReducibility true

attribute [local semireducible] Rat.add Rat.mul Rat.inv Rat.sub Rat.ofScientific

/-- Error kinds raised by the pipeline.
`shape` models the `ShapeMismatch` raised by `fidanka.exception.shape_dimension_check`;
`partitionBound` models the `ValueError` raised by `np.argpartition` when the
requested `kth` index does not exist;
`geometry` models the `QhullError` raised by `scipy.spatial.ConvexHull` on fewer
than 3 non-collinear points;
`emptyInput` models the `ValueError` raised by Python `max`/`min` of an empty sequence;
`uninitialized` marks the case where the source would return the contents of
`np.empty_like` without ever writing to it (loop body never executed);
`indexOut` models a Python `IndexError` from `lines[idx]`. -/
inductive FidErr where
  | shape
  | partitionBound
  | geometry
  | emptyInput
  | uninitialized
  | indexOut
  deriving DecidableEq

instance {ε α : Type} [DecidableEq ε] [DecidableEq α] : DecidableEq (Except ε α) := fun x y =>
  match x, y with
  | .ok a, .ok b =>
      if h : a = b then isTrue (by rw [h]) else isFalse (fun c => h (by cases c; rfl))
  | .error e, .error f =>
      if h : e = f then isTrue (by rw [h]) else isFalse (fun c => h (by cases c; rfl))
  | .ok _, .error _ => isFalse (fun c => Except.noConfusion c)
  | .error _, .ok _ => isFalse (fun c => Except.noConfusion c)

/-- Kernel-friendly binary maximum on rationals (semantics of `max`). -/
def qmax (a b : ℚ) : ℚ := if a ≤ b then b else a

/-- Kernel-friendly binary minimum on rationals (semantics of `min`). -/
def qmin (a b : ℚ) : ℚ := if a ≤ b then a else b

/-- Kernel-friendly absolute value on rationals. -/
def qabs (a : ℚ) : ℚ := if a < 0 then -a else a

/-- Mean of a list (`np.mean`).  On the empty list the source would produce
NaN; no reachable flow of the claims evaluates it there. -/
def meanQ (l : List ℚ) : ℚ := l.sum / (l.length : ℚ)

/-- Sequential effectful map over `Except`, with the left-to-right
short-circuit of a Python loop: the first raised exception propagates. -/
def mapExcept (f : α → Except FidErr β) : List α → Except FidErr (List β)
  | [] => .ok []
  | a :: as => do
      let b ← f a
      let bs ← mapExcept f as
      .ok (b :: bs)

/-- Modelled from the spec: `fidanka.exception.shape_dimension_check` (not under
src/) — "ShapeMismatch (input arrays of unequal length/dimension — fails before
any computation starts)". -/
def shape_dimension_check (a b : List ℚ) : Except FidErr Unit :=
  if a.length = b.length then .ok () else .error .shape

/-- Stable ascending comparison of distance values keyed by index: the order
`np.argsort`/`np.argpartition` induce on indices, with ties broken by index
order (the spec's nearest-neighbour selector: "ties broken arbitrarily but
deterministically by index order"). -/
def argsortKey (d : List ℚ) (i j : ℕ) : Prop :=
  d.getD i 0 < d.getD j 0 ∨ (d.getD i 0 = d.getD j 0 ∧ i ≤ j)

instance (d : List ℚ) : DecidableRel (argsortKey d) := fun i j => by
  unfold argsortKey; infer_instance

/-- Model of `np.argpartition(d, kth)`: requires the `kth` order statistic to
exist (`kth ≤ len(d) - 1`), otherwise numpy raises
`ValueError: kth(=kth) out of bounds`.  numpy returns a permutation whose
prefix of length `kth` holds the `kth` smallest entries in unspecified order;
since the caller only uses the *set* of the first `n` indices (it feeds them to
a convex hull), we return the fully index-stably-sorted permutation, which has
the same first-`n` set whenever the data has no tie at the selection boundary. -/
def argpartition (d : List ℚ) (kth : ℕ) : Except FidErr (List ℕ) :=
  if kth < d.length then
    .ok ((List.range d.length).insertionSort (argsortKey d))
  else .error .partitionBound

/-- Squared Euclidean distance.  The source computes the Euclidean distance
with `scipy.spatial.distance.cdist`; only the relative order of the distances
is ever consumed (by `argpartition`), and squaring is strictly monotone on
nonnegative reals, so the squared distance induces the identical selection
while staying inside ℚ. -/
def sqDist (p q : ℚ × ℚ) : ℚ := (p.1 - q.1) ^ 2 + (p.2 - q.2) ^ 2

/-- Cross product of `a - o` and `b - o` (orientation test for the hull). -/
def crossP (o a b : ℚ × ℚ) : ℚ :=
  (a.1 - o.1) * (b.2 - o.2) - (a.2 - o.2) * (b.1 - o.1)

/-- Lexicographic order on points, for the monotone-chain sweep. -/
def lexLE (p q : ℚ × ℚ) : Prop := p.1 < q.1 ∨ (p.1 = q.1 ∧ p.2 ≤ q.2)

instance : DecidableRel lexLE := fun p q => by
  unfold lexLE; infer_instance

/-- One step of the monotone-chain hull construction: push `p`, popping stack
entries that no longer make a strict left turn. -/
def addToHull : List (ℚ × ℚ) → (ℚ × ℚ) → List (ℚ × ℚ)
  | b :: a :: rest, p =>
      if crossP a b p ≤ 0 then addToHull (a :: rest) p else p :: b :: a :: rest
  | st, p => p :: st

/-- One half (lower or upper chain) of the convex hull, in traversal order. -/
def halfHull (pts : List (ℚ × ℚ)) : List (ℚ × ℚ) :=
  (pts.foldl addToHull []).reverse

/-- Vertices of the convex hull in counterclockwise order (monotone chain). -/
def convexHullVertices (pts : List (ℚ × ℚ)) : List (ℚ × ℚ) :=
  let s := pts.insertionSort lexLE
  (halfHull s).dropLast ++ (halfHull s.reverse).dropLast

/-- Twice the signed area of a polygon (shoelace sum over cyclic edges). -/
def shoelaceSum (vs : List (ℚ × ℚ)) : ℚ :=
  ((vs.zip (vs.rotate 1)).map (fun pq => pq.1.1 * pq.2.2 - pq.2.1 * pq.1.2)).sum

/-- Modelled from the spec: the external convex-hull collaborator
`scipy.spatial.ConvexHull` (qhull), §6 — "hull(points) -> area, vertex_set;
fails with GeometryError on <3 non-collinear points".  In 2D qhull's `volume`
attribute is the hull area; qhull raises exactly when the input has fewer than
3 points or all points are collinear, which is exactly when the monotone chain
yields fewer than 3 vertices. -/
def ConvexHullArea (pts : List (ℚ × ℚ)) : Except FidErr ℚ :=
  let h := convexHullVertices pts
  if h.length < 3 then .error .geometry else .ok (qabs (shoelaceSum h) / 2)

/-- Model of `np.median`: middle element of the sorted data for odd length,
mean of the two middle elements for even length.  (`np.median` of an empty
array would be NaN; no reachable flow of the claims evaluates it there.) -/
def npMedian (l : List ℚ) : ℚ :=
  let s := l.insertionSort (· ≤ ·)
  if l.length % 2 = 1 then s.getD (l.length / 2) 0
  else (s.getD (l.length / 2 - 1) 0 + s.getD (l.length / 2) 0) / 2

/-- `instantaious_hull_density(r0, ri, n)` from the source: distances from `r0`
to every point of `ri`, partial selection of the `n` closest
(`np.argpartition(distance, n)[:n]`), convex hull of those points, density =
point count / hull area.  Returns `(density, hull area, selected indices)`
mirroring the source's `(density, hull, partition)`. -/
def instantaious_hull_density (r0 : ℚ × ℚ) (ri : List (ℚ × ℚ)) (n : ℕ) :
    Except FidErr (ℚ × ℚ × List ℕ) := do
  let distance := ri.map (sqDist r0)
  let partitionFull ← argpartition distance n
  let part := partitionFull.take n
  let hullPoints := part.map (fun i => ri.getD i (0, 0))
  let area ← ConvexHullArea hullPoints
  .ok ((hullPoints.length : ℚ) / area, area, part)

/-- `hull_density(X, Y, n)` from the source: shape check, per-point
`instantaious_hull_density` over the whole cloud (sequential, first exception
propagates), then division of the whole vector by its median. -/
def hull_density (X Y : List ℚ) (n : ℕ) : Except FidErr (List ℚ) := do
  let _ ← shape_dimension_check X Y
  let r := X.zip Y
  let density ← mapExcept (fun r0 => (instantaious_hull_density r0 r n).map (fun t => t.1)) r
  .ok (density.map (fun d => d / npMedian density))

/-- `color_mag_from_filters(filter1, filter2, reverseFilterOrder)` from the
source: shape check, `color = filter1 - filter2`, magnitude is `filter2` when
the order is reversed and `filter1` otherwise. -/
def color_mag_from_filters (f1 f2 : List ℚ) (rev : Bool) :
    Except FidErr (List ℚ × List ℚ) := do
  let _ ← shape_dimension_check f1 f2
  .ok (List.zipWith (· - ·) f1 f2, if rev then f2 else f1)

/-- `shift_photometry_by_error(phot, err, baseSampling)` from the source:
shape check on `phot`/`err`, then `phot + baseSampling * err` elementwise. -/
def shift_photometry_by_error (phot err bs : List ℚ) : Except FidErr (List ℚ) := do
  let _ ← shape_dimension_check phot err
  .ok (List.zipWith (fun pe b => pe.1 + b * pe.2) (phot.zip err) bs)

/-- Runtime type of the `width_coeff` argument
(`Union[float, str, None]` in the source): `unset` is Python `None`,
`auto` is the string `"auto"`, `numeric v` is a float.  The source compares
with `width_coeff == "auto"`, which is `False` as soon as a float has been
assigned to the variable. -/
inductive WidthCoeff where
  | unset
  | auto
  | numeric (v : ℚ)
  deriving DecidableEq

/-- Numeric value of a width coefficient.  Every use site in the source
(`colorS * width_coeff`) is reached only after `None` has been replaced by `1`
and `"auto"` has been replaced by a computed float, so the `0` branches are
dead. -/
def wcValue : WidthCoeff → ℚ
  | .numeric v => v
  | _ => 0

/-- Largest element of a list (`np.nanmax` on NaN-free data).  On the empty
list numpy would raise; no reachable flow of the claims evaluates it there. -/
def maxD (l : List ℚ) : ℚ := l.foldl qmax (l.headD 0)

/-- Smallest element of a list (`np.nanmin` on NaN-free data). -/
def minD (l : List ℚ) : ℚ := l.foldl qmin (l.headD 0)

/-- The `"auto"` width coefficient of the source: ratio of the magnitude range
to the color range of the current data
(`(np.nanmax(magS) - np.nanmin(magS)) / (np.nanmax(colorS) - np.nanmin(colorS))`). -/
def autoWidthCoeff (colorS magS : List ℚ) : ℚ :=
  (maxD magS - minD magS) / (maxD colorS - minD colorS)

/-- Loop state of `MC_convex_hull_density_approximation`.  `density` is `none`
before the first loop iteration has written to the `np.empty_like` buffer;
`wc` is the current value of the (mutated) `width_coeff` variable.
`usedCoeffs` and `runDensities` record, per iteration, the coefficient value
actually used and the `tDensity` of that iteration; they are verification
instrumentation only and are never read by the computation itself. -/
structure MCState where
  density : Option (List ℚ)
  wc : WidthCoeff
  usedCoeffs : List ℚ
  runDensities : List (List ℚ)
  deriving DecidableEq

/-- Body of the Monte Carlo loop of `MC_convex_hull_density_approximation`
(source lines 360-380): perturb the photometry when `mcruns > 1` (else use the
nominal photometry), resolve an `"auto"` width coefficient from the *current*
arrays (the assignment overwrites the `width_coeff` variable), compute the
hull density of `(colorS * width_coeff, magS)`, and fold it into the running
density (`density = tDensity` on the first run, else elementwise
`(density + tDensity) / 2`). -/
def MC_step (f1 f2 e1 e2 : List ℚ) (rev : Bool) (mcruns n : ℕ)
    (st : MCState) (bs : List ℚ × List ℚ) : Except FidErr MCState := do
  let cm ←
    if 1 < mcruns then do
      let f1s ← shift_photometry_by_error f1 e1 bs.1
      let f2s ← shift_photometry_by_error f2 e2 bs.2
      color_mag_from_filters f1s f2s rev
    else
      color_mag_from_filters f1 f2 rev
  let wc := if st.wc = .auto then .numeric (autoWidthCoeff cm.1 cm.2) else st.wc
  let tDensity ← hull_density (cm.1.map (· * wcValue wc)) cm.2 n
  let density := match st.density with
    | Option.none => tDensity
    | some d => List.zipWith (fun a b => (a + b) / 2) d tDensity
  .ok ⟨some density, wc, st.usedCoeffs ++ [wcValue wc], st.runDensities ++ [tDensity]⟩

/-- The Monte Carlo loop itself: left-to-right iteration over the base
sampling, first raised exception propagating. -/
def MC_loop (f1 f2 e1 e2 : List ℚ) (rev : Bool) (mcruns n : ℕ) :
    List (List ℚ × List ℚ) → MCState → Except FidErr MCState
  | [], st => .ok st
  | bs :: rest, st => do
      let st' ← MC_step f1 f2 e1 e2 rev mcruns n st bs
      MC_loop f1 f2 e1 e2 rev mcruns n rest st'

/-- `MC_convex_hull_density_approximation` up to its final state (source lines
345-382): the guarded shape checks, the `None -> 1` width default, the choice
of iteration space (`baseSampling`, one row per Monte Carlo run, when
`mcruns > 1`; a single zero sample row otherwise), and the loop. -/
def MC_full (f1 f2 e1 e2 : List ℚ) (wc : WidthCoeff) (rev : Bool) (mcruns n : ℕ)
    (baseSampling : List (List ℚ × List ℚ)) : Except FidErr MCState := do
  if 1 < mcruns then do
    let _ ← shape_dimension_check f1 e1
    let _ ← shape_dimension_check f2 e2
  let _ ← shape_dimension_check f1 f2
  let wc0 := if wc = .unset then .numeric 1 else wc
  let draws := if 1 < mcruns then baseSampling
               else [(List.replicate f1.length 0, List.replicate f1.length 0)]
  MC_loop f1 f2 e1 e2 rev mcruns n draws ⟨Option.none, wc0, [], []⟩

/-- `MC_convex_hull_density_approximation` as the caller sees it: the final
`density` array.  If the loop body never ran the source would return the
uninitialized `np.empty_like` buffer; that is surfaced as an error here and is
unreachable for `mcruns = 1` (the loop then always has exactly one iteration). -/
def MC_convex_hull_density_approximation (f1 f2 e1 e2 : List ℚ) (wc : WidthCoeff)
    (rev : Bool) (mcruns n : ℕ) (baseSampling : List (List ℚ × List ℚ)) :
    Except FidErr (List ℚ) := do
  let st ← MC_full f1 f2 e1 e2 wc rev mcruns n baseSampling
  match st.density with
  | some d => .ok d
  | Option.none => .error .uninitialized

/-- Projection of the instrumented loop state: the width-coefficient value the
loop actually used on each Monte Carlo run. -/
def MC_width_coeff_trace (f1 f2 e1 e2 : List ℚ) (wc : WidthCoeff) (rev : Bool)
    (mcruns n : ℕ) (baseSampling : List (List ℚ × List ℚ)) :
    Except FidErr (List ℚ) :=
  (MC_full f1 f2 e1 e2 wc rev mcruns n baseSampling).map MCState.usedCoeffs

/-- The width-coefficient ratio a given Monte Carlo draw *would* produce:
perturb the photometry by `bs` scaled with the errors, recompute color and
magnitude, and take the magnitude-range to color-range ratio.  Pure counterpart
of the corresponding steps of `MC_step`. -/
def draw_width_coeff (f1 f2 e1 e2 : List ℚ) (rev : Bool) (bs : List ℚ × List ℚ) : ℚ :=
  let f1s := List.zipWith (fun pe b => pe.1 + b * pe.2) (f1.zip e1) bs.1
  let f2s := List.zipWith (fun pe b => pe.1 + b * pe.2) (f2.zip e2) bs.2
  autoWidthCoeff (List.zipWith (· - ·) f1s f2s) (if rev then f2s else f1s)

/-- The running-average recurrence exactly as the spec states it for §4.2:
`density = tDensity` on the first run, else `density = (density + tDensity)/2`
elementwise, folded over the per-run densities in order. -/
def running_average (ts : List (List ℚ)) : Option (List ℚ) :=
  ts.foldl
    (fun acc t =>
      match acc with
      | Option.none => some t
      | some d => some (List.zipWith (fun a b => (a + b) / 2) d t))
    Option.none

/-- `load_density` from the source (lines 647-677).  The on-disk `.npz` file
is modelled as `cacheFile : Option (List ℚ × ℕ)` (density array and the
`mcruns` value stored with it; the source reads the stored `mcruns` back but
never uses it).  A cache hit (`cacheDensity` and the file exists) returns the
stored density unchanged; otherwise the density is recomputed with
`MC_convex_hull_density_approximation(..., mcruns=1)` and written through when
`cacheDensity` is set.  Returns the density together with the file state after
the call. -/
def load_density (cacheDensity : Bool) (cacheFile : Option (List ℚ × ℕ))
    (f1 f2 e1 e2 : List ℚ) (rev : Bool) (n : ℕ) (wc : ℚ) :
    Except FidErr (List ℚ × Option (List ℚ × ℕ)) :=
  match cacheDensity, cacheFile with
  | true, some entry => .ok (entry.1, some entry)
  | cd, file => do
      let d ← MC_convex_hull_density_approximation f1 f2 e1 e2 (.numeric wc) rev 1 n []
      .ok (d, if cd then some (d, 1) else file)

/-- Linear interpolation on an ascending list of control points with linear
extrapolation from the first/last segment: the evaluation semantics of
`scipy.interpolate.interp1d(x, y, bounds_error=False, fill_value="extrapolate")`
for distinct knots. -/
def interpGo : List (ℚ × ℚ) → ℚ → ℚ
  | p :: q :: rest, x =>
      if x ≤ q.1 ∨ rest = [] then
        p.2 + (x - p.1) * (q.2 - p.2) / (q.1 - p.1)
      else interpGo (q :: rest) x
  | [p], _ => p.2
  | [], _ => 0

/-- Evaluation of the interp1d interpolant built from unsorted control points
(`interp1d` sorts its knots internally).  `scipy` requires at least two knots;
the short lists, never reached by the claims, evaluate to a constant here. -/
def interp1dEval (pts : List (ℚ × ℚ)) (x : ℚ) : ℚ :=
  interpGo (pts.insertionSort lexLE) x

/-- Modelled from the spec: the external collaborators of §6 that live outside
src/ (`fidanka.fiducial.utils.median_ridge_line_estimate`, `mag_bins`,
`bin_color_mag_density`, `clean_bins`, `GMM_component_measurment`, and
`fidanka.fiducial.methods.plm`).  The orchestrator is parameterized over them;
theorems about it hold for every implementation, and concrete runs instantiate
them with simple total functions.
`medianRidge color mag density` returns the fiducial control points as the
source indexes them: component 1 holds the colors (`fiducialLine[0]`),
component 2 the magnitudes (`fiducialLine[1]`).
`magBins mag pA pB` returns `(left edges, right edges)`.
`binCMD vColor mag density targetStat` groups the points per adaptive bin.
`cleanBins` sigma-clips the bins.  `gmmComponents colorBins densityBins nPops`
returns, per magnitude bin, the `nPops` Gaussian-mixture component centers.
`plmFit color mag pw binsLeft binsRight` is the piecewise-linear fitter. -/
structure Externals where
  medianRidge : List ℚ → List ℚ → List ℚ → (List ℚ × List ℚ)
  magBins : List ℚ → ℚ → ℚ → (List ℚ × List ℚ)
  binCMD : List ℚ → List ℚ → List ℚ → ℕ →
    (List (List ℚ) × List (List ℚ) × List (List ℚ))
  cleanBins : List (List ℚ) × List (List ℚ) × List (List ℚ) →
    (List (List ℚ) × List (List ℚ) × List (List ℚ))
  gmmComponents : List (List ℚ) → List (List ℚ) → ℕ → List (List ℚ)
  plmFit : List ℚ → List ℚ → List ℚ → List ℚ → List ℚ → (List ℚ × List ℚ)

/-- `approximate_fiducial_line_function` from the source (lines 515-577): the
external median-ridge estimate, turned into interp1d control points
(`interp1d(fiducialLine[1], fiducialLine[0], fill_value="extrapolate")`, so
the knot abscissae are the magnitudes).  The returned value is the control
point list; evaluating the returned callable is `interp1dEval`. -/
def approximate_fiducial_line_function (ext : Externals)
    (color mag density : List ℚ) : List (ℚ × ℚ) :=
  let fiducialLine := ext.medianRidge color mag density
  fiducialLine.2.zip fiducialLine.1

/-- `verticalize_CMD` from the source (lines 580-644): fit the approximate
fiducial line function `ff` and return `(color - ff(mag), ff)`. -/
def verticalize_CMD (ext : Externals) (color mag density : List ℚ) :
    List ℚ × List (ℚ × ℚ) :=
  let ff := approximate_fiducial_line_function ext color mag density
  (List.zipWith (fun c m => c - interp1dEval ff m) color mag, ff)

/-- Ascending sort of each magnitude bin's component centers: the source's
`sid = np.argsort(cs); gmm_vert_means[idx] = cs[sid]` applied to every row. -/
def sortRowsAscending (means : List (List ℚ)) : List (List ℚ) :=
  means.map (fun cs => cs.insertionSort (· ≤ ·))

/-- First arguments of the `add_measurement` calls issued by the
`nPops != 1` branch of `measure_fiducial_lines` (source lines 915-922): sort
each bin's centers ascending, then iterate over the *columns* of the resulting
(bins x nPops) matrix (`gmm_vert_means.T`); population `p` receives, for each
bin, its `p`-th smallest center plus the ridge offset at that bin's mean
magnitude (`fLine + ff(vMagBinMeans)` elementwise). -/
def feedMulti (means : List (List ℚ)) (ffAtMeans : List ℚ) (nPops : ℕ) :
    List (List ℚ) :=
  let sorted := sortRowsAscending means
  (List.range nPops).map
    (fun p => (sorted.zip ffAtMeans).map (fun rowf => rowf.1.getD p 0 + rowf.2))

/-- First arguments of the `add_measurement` calls issued by the `nPops == 1`
branch (source lines 923-927): iterating `for fLine in gmm_vert_means` walks
the *rows* (one per magnitude bin), each a length-1 array, and
`fLine + ff(vMagBinMeans)` broadcasts that bin's single center over the ridge
offsets of every bin — one call to `lines[0].add_measurement` per bin. -/
def feedOne (means : List (List ℚ)) (ffAtMeans : List ℚ) : List (List ℚ) :=
  means.map (fun row => ffAtMeans.map (fun f => row.headD 0 + f))

/-- Modelled from the spec: the external ridge-line accumulator
(`fidanka.fiducial.fiducialLine.fiducial_line`, not under src/) — §6:
"`add_measurement(handle, colorValues[], magValues[], evalMags[])` —
interpolates the per-run measurement onto the canonical `evalMags` grid and
folds it into the running estimate".  A handle is modelled as the list of
measurements recorded so far, each already interpolated onto `evalMags`. -/
def add_measurement (handle : List (List ℚ)) (colorVals magVals evalMags : List ℚ) :
    List (List ℚ) :=
  handle ++ [evalMags.map (interp1dEval (magVals.zip colorVals))]

/-- Result type of `measure_fiducial_lines`.  `pyNone` is the Python `None`
the function returns when control falls off its end (the piecewise-linear
branch has no `return` statement); `lines` is the accumulator list returned by
the Monte Carlo branch. -/
inductive MFLOut where
  | pyNone
  | lines (ls : List (List (List ℚ)))
  deriving DecidableEq

/-- Loop state of the Monte Carlo branch of `measure_fiducial_lines`:
the per-population accumulators, the state of the on-disk density cache file,
and (verification instrumentation only) the density array each iteration
actually fed to verticalization and binning. -/
structure MFLState where
  lines : List (List (List ℚ))
  cacheFile : Option (List ℚ × ℕ)
  densityTrace : List (List ℚ)
  deriving DecidableEq

/-- Python `max`/`min` raise `ValueError` on an empty sequence. -/
def pyMax (l : List ℚ) : Except FidErr ℚ :=
  match l with
  | [] => .error .emptyInput
  | a :: rest => .ok (rest.foldl qmax a)

/-- Smallest element, raising on the empty sequence like Python `min`. -/
def pyMin (l : List ℚ) : Except FidErr ℚ :=
  match l with
  | [] => .error .emptyInput
  | a :: rest => .ok (rest.foldl qmin a)

/-- Step 1 of `measure_fiducial_lines` (source lines 823-830): the nominal
width coefficient, ratio of the full magnitude range to the full color range,
respecting the filter polarity (`filter2` and `filter2 - filter1` when the
order is reversed, else `filter1` and `filter1 - filter2`). -/
def nominal_width_coeff (f1 f2 : List ℚ) (rev : Bool) : Except FidErr ℚ := do
  if rev then
    let a ← pyMax f2
    let b ← pyMin f2
    let c ← pyMax (List.zipWith (· - ·) f2 f1)
    let d ← pyMin (List.zipWith (· - ·) f2 f1)
    .ok ((a - b) / (c - d))
  else
    let a ← pyMax f1
    let b ← pyMin f1
    let c ← pyMax (List.zipWith (· - ·) f1 f2)
    let d ← pyMin (List.zipWith (· - ·) f1 f2)
    .ok ((a - b) / (c - d))

/-- Body of the Monte Carlo loop of `measure_fiducial_lines` (source lines
880-927): shift the photometry by the current draw, recompute color and
magnitude, fetch the density through `load_density` (threading the cache-file
state), verticalize, bin, clean, run the Gaussian-mixture separation, and feed
the per-population measurements into the accumulators — through the columns of
the row-sorted center matrix when `nPops != 1`, and through `feedOne`'s
row-broadcast calls to `lines[0]` when `nPops == 1` (where an empty
accumulator list with calls pending would be Python's `IndexError`). -/
def mfl_iteration (ext : Externals) (f1 f2 e1 e2 : List ℚ) (rev : Bool)
    (cacheDensity : Bool) (n : ℕ) (wc : ℚ) (nPops targetStat : ℕ)
    (evalMags : List ℚ) (st : MFLState) (bs : List ℚ × List ℚ) :
    Except FidErr MFLState := do
  let f1s ← shift_photometry_by_error f1 e1 bs.1
  let f2s ← shift_photometry_by_error f2 e2 bs.2
  let cm ← color_mag_from_filters f1s f2s rev
  let dc ← load_density cacheDensity st.cacheFile f1s f2s e1 e2 rev n wc
  let vcf := verticalize_CMD ext cm.1 cm.2 dc.1
  let bins := ext.binCMD vcf.1 cm.2 dc.1 targetStat
  let cleaned := ext.cleanBins bins
  let gmmVertMeans := ext.gmmComponents cleaned.1 cleaned.2.2 nPops
  let vMagBinMeans := cleaned.2.1.map meanQ
  let ffAtMeans := vMagBinMeans.map (interp1dEval vcf.2)
  let lines' ←
    if nPops ≠ 1 then
      let calls := feedMulti gmmVertMeans ffAtMeans nPops
      if st.lines.length < calls.length then .error .indexOut
      else .ok (st.lines.mapIdx (fun i h =>
        match calls.get? i with
        | some c => add_measurement h c vMagBinMeans evalMags
        | Option.none => h))
    else
      let calls := feedOne gmmVertMeans ffAtMeans
      match st.lines, calls with
      | [], [] => .ok []
      | [], _ :: _ => .error .indexOut
      | l0 :: restL, cs =>
          .ok ((cs.foldl (fun h c => add_measurement h c vMagBinMeans evalMags) l0) :: restL)
  .ok ⟨lines', dc.2, st.densityTrace ++ [dc.1]⟩

/-- The Monte Carlo loop of `measure_fiducial_lines`: one `mfl_iteration` per
base-sampling row, first raised exception propagating. -/
def mfl_loop (ext : Externals) (f1 f2 e1 e2 : List ℚ) (rev : Bool)
    (cacheDensity : Bool) (n : ℕ) (wc : ℚ) (nPops targetStat : ℕ)
    (evalMags : List ℚ) : List (List ℚ × List ℚ) → MFLState → Except FidErr MFLState
  | [], st => .ok st
  | bs :: rest, st => do
      let st' ← mfl_iteration ext f1 f2 e1 e2 rev cacheDensity n wc nPops targetStat
        evalMags st bs
      mfl_loop ext f1 f2 e1 e2 rev cacheDensity n wc nPops targetStat evalMags rest st'

/-- `measure_fiducial_lines` (source lines 680-928) together with the
per-iteration density instrumentation.  Steps: nominal width coefficient,
nominal color/magnitude, density via `load_density`, nominal verticalization,
magnitude bins and their centers `Eval_mags`; then either the piecewise-linear
branch — which computes `plm(...)` into a local variable but has no `return`
statement, so the call returns Python `None` — or the Monte Carlo loop over
`baseSampling` (the source draws `baseSampling` with shape
`(mcruns, 2, len(error1))`; it is passed in explicitly here, `mcruns` itself
is consumed by nothing else).  The module-level logger and warning-handler
installation at the top of the source function is process-wide I/O with no
effect on the returned value and is not modelled. -/
def measure_fiducial_lines_run (ext : Externals) (f1 f2 e1 e2 : List ℚ)
    (rev : Bool) (mcruns n : ℕ) (percLow percHigh : ℚ) (cacheDensity : Bool)
    (cacheFile : Option (List ℚ × ℕ)) (piecewiseLinear : Option (List ℚ))
    (nPops targetStat : ℕ) (baseSampling : List (List ℚ × List ℚ)) :
    Except FidErr (MFLOut × List (List ℚ)) := do
  let wc ← nominal_width_coeff f1 f2 rev
  let cm ← color_mag_from_filters f1 f2 rev
  let dc ← load_density cacheDensity cacheFile f1 f2 e1 e2 rev n wc
  let _vcf := verticalize_CMD ext cm.1 cm.2 dc.1
  let lr := ext.magBins cm.2 percHigh percLow
  let evalMags := List.zipWith (fun a b => (a + b) / 2) lr.1 lr.2
  match piecewiseLinear with
  | some pw =>
      let lr2 := ext.magBins cm.2 percLow percHigh
      let _fiducial := ext.plmFit cm.1 cm.2 pw lr2.1 lr2.2
      .ok (.pyNone, [])
  | Option.none => do
      let init : List (List (List ℚ)) := (List.range nPops).map (fun _ => [])
      let final ← mfl_loop ext f1 f2 e1 e2 rev cacheDensity n wc nPops targetStat
        evalMags baseSampling ⟨init, dc.2, []⟩
      .ok (.lines final.lines, final.densityTrace)

/-- `measure_fiducial_lines` as the caller sees it: the returned value only. -/
def measure_fiducial_lines (ext : Externals) (f1 f2 e1 e2 : List ℚ)
    (rev : Bool) (mcruns n : ℕ) (percLow percHigh : ℚ) (cacheDensity : Bool)
    (cacheFile : Option (List ℚ × ℕ)) (piecewiseLinear : Option (List ℚ))
    (nPops targetStat : ℕ) (baseSampling : List (List ℚ × List ℚ)) :
    Except FidErr MFLOut :=
  (measure_fiducial_lines_run ext f1 f2 e1 e2 rev mcruns n percLow percHigh
    cacheDensity cacheFile piecewiseLinear nPops targetStat baseSampling).map Prod.fst

/-- Simple total instantiation of the external collaborators, used to evaluate
the orchestrator on concrete data: a constant-zero ridge estimate through two
control points, one fixed magnitude bin, one point group holding all points,
an identity bin cleaner, and a mixture separator returning each bin's
weighted-free mean center `nPops` times. -/
def extTrivial : Externals where
  medianRidge := fun _ _ _ => ([0, 0], [0, 1])
  magBins := fun _ _ _ => ([0], [1])
  binCMD := fun c m d _ => ([c], [m], [d])
  cleanBins := fun b => b
  gmmComponents := fun cB _ nP => cB.map (fun row => List.replicate nP (meanQ row))
  plmFit := fun c m _ _ _ => (c, m)

/-- Concrete photometry: four stars whose color-magnitude diagram is the unit
square (color `[0,1,0,1]`, magnitude `[0,0,1,1]`, nominal width coefficient 1). -/
def f1c : List ℚ := [0, 0, 1, 1]

/-- Second filter of the concrete photometry. -/
def f2c : List ℚ := [0, -1, 1, 0]

/-- Unit photometric uncertainties for the concrete photometry. -/
def e1c : List ℚ := [1, 1, 1, 1]

/-- Unit photometric uncertainties of the second filter. -/
def e2c : List ℚ := [1, 1, 1, 1]

/-- A zero Monte Carlo draw (no perturbation). -/
def bsZero : List ℚ × List ℚ := ([0, 0, 0, 0], [0, 0, 0, 0])

/-- A Monte Carlo draw perturbing only the fourth star: its first-filter
magnitude moves up by one sigma and its second-filter magnitude down by one,
sending the CMD point cloud to `(0,0), (1,0), (0,1), (3,2)`. -/
def bsShift : List ℚ × List ℚ := ([0, 0, 0, 1], [0, 0, 0, -1])

theorem getD_map_lt {α β : Type} (f : α → β) (l : List α) (j : ℕ) (d : α) (e : β)
    (hj : j < l.length) : (l.map f).getD j e = f (l.getD j d) := by
  induction l generalizing j with
  | nil => simp at hj
  | cons a as ih =>
    cases j with
    | zero => rfl
    | succ j' => simpa using ih j' (by simpa using hj)

theorem getD_zipWith_lt (f : ℚ → ℚ → ℚ) (l1 l2 : List ℚ) (i : ℕ)
    (h1 : i < l1.length) (h2 : i < l2.length) :
    (List.zipWith f l1 l2).getD i 0 = f (l1.getD i 0) (l2.getD i 0) := by
  induction l1 generalizing l2 i with
  | nil => simp at h1
  | cons a as ih =>
    cases l2 with
    | nil => simp at h2
    | cons b bs =>
      cases i with
      | zero => rfl
      | succ i' => simpa using ih bs i' (by simpa using h1) (by simpa using h2)

theorem getD_zip_map_add (rows : List (List ℚ)) (fs : List ℚ) (p j : ℕ)
    (hj : j < rows.length) (hlen : fs.length = rows.length) :
    ((rows.zip fs).map (fun rowf => rowf.1.getD p 0 + rowf.2)).getD j 0
      = (rows.getD j []).getD p 0 + fs.getD j 0 := by
  induction rows generalizing fs j with
  | nil => simp at hj
  | cons r rs ih =>
    cases fs with
    | nil => simp at hlen
    | cons f fs' =>
      cases j with
      | zero => rfl
      | succ j' =>
        simpa using ih fs' j' (by simpa using hj) (by simpa using hlen)

theorem sorted_head_mem (row : List ℚ) (h : row ≠ []) :
    (row.insertionSort (· ≤ ·)).getD 0 0 ∈ row := by
  have hperm := List.perm_insertionSort (· ≤ ·) row
  cases hs : row.insertionSort (· ≤ ·) with
  | nil =>
    rw [hs] at hperm
    exact absurd hperm.nil_eq.symm h
  | cons x xs =>
    have : x ∈ row.insertionSort (· ≤ ·) := by rw [hs]; exact List.mem_cons_self x xs
    simpa [hs] using (hperm.mem_iff).1 this

theorem sorted_head_le (row : List ℚ) :
    ∀ c ∈ row, (row.insertionSort (· ≤ ·)).getD 0 0 ≤ c := by
  intro c hc
  have hperm := List.perm_insertionSort (· ≤ ·) row
  have hsorted := List.sorted_insertionSort (· ≤ ·) row
  have hc' : c ∈ row.insertionSort (· ≤ ·) := (hperm.mem_iff).2 hc
  cases hs : row.insertionSort (· ≤ ·) with
  | nil => rw [hs] at hc'; simp at hc'
  | cons x xs =>
    rw [hs] at hc' hsorted
    rcases List.mem_cons.1 hc' with h | h
    · simp [h]
    · simpa using List.rel_of_sorted_cons hsorted c h

/-- Claim C1: with a piecewise-linear mode requested the source computes
`fiducial = plm(...)` but the only `return` statement of
`measure_fiducial_lines` sits in the `else` branch, so the call falls off the
end of the function and returns Python `None` instead of the fitted ridge
line — contradicting the docstring's Returns section.  Evaluated here at
concrete photometry with `piecewise_linear = [10, 100]`. -/
theorem claim_C1_piecewise_returns_none :
    measure_fiducial_lines extTrivial f1c f2c e1c e2c false 10 3 1 99 false
      Option.none (some [10, 100]) 2 250 [] = .ok .pyNone := by decide

/-- Claim C2, counterexample: with `cacheDensity = True` and a cache file
written by the nominal pass, the Monte Carlo iteration of
`measure_fiducial_lines` feeds verticalization the cached nominal density
`[1,1,1,1]`, while recomputing from that iteration's freshly perturbed
photometry (`f1s = [0,0,1,2]`, `f2s = [0,-1,1,-1]`) would give
`[1,1,1,1/4]`. -/
theorem claim_C2_cex :
    (measure_fiducial_lines_run extTrivial f1c f2c e1c e2c false 1 3 1 99 true
        Option.none Option.none 2 250 [bsShift]).map (fun r => r.2)
      = .ok [[1, 1, 1, 1]]
    ∧ shift_photometry_by_error f1c e1c bsShift.1 = .ok [0, 0, 1, 2]
    ∧ shift_photometry_by_error f2c e2c bsShift.2 = .ok [0, -1, 1, -1]
    ∧ MC_convex_hull_density_approximation [0, 0, 1, 2] [0, -1, 1, -1] e1c e2c
        (.numeric 1) false 1 3 [] = .ok [1, 1, 1, 1 / 4]
    ∧ ([[1, 1, 1, 1]] : List (List ℚ)) ≠ [[1, 1, 1, 1 / 4]] :=
  ⟨by decide, by decide, by decide, by decide, by decide⟩

/-- Claim C2, amended: the per-iteration density is recomputed from the fresh
perturbed photometry exactly when `cacheDensity` is false or no cache file
exists (with a write-through when `cacheDensity` is set); on a cache hit the
stored density is returned unchanged and the result does not depend on the
perturbed photometry at all. -/
theorem claim_C2_fix (cd : Bool) (cacheFile : Option (List ℚ × ℕ))
    (f1s f2s e1 e2 : List ℚ) (rev : Bool) (n : ℕ) (wc : ℚ) :
    (cd = false ∨ cacheFile = Option.none →
      load_density cd cacheFile f1s f2s e1 e2 rev n wc
        = (MC_convex_hull_density_approximation f1s f2s e1 e2 (.numeric wc) rev 1 n []).map
            (fun d => (d, if cd then some (d, 1) else cacheFile)))
    ∧ ∀ entry, cd = true → cacheFile = some entry →
        load_density cd cacheFile f1s f2s e1 e2 rev n wc = .ok (entry.1, some entry)
        ∧ ∀ g1 g2 : List ℚ, load_density cd cacheFile f1s f2s e1 e2 rev n wc
            = load_density cd cacheFile g1 g2 e1 e2 rev n wc := by
  constructor
  · intro h
    cases hmc : MC_convex_hull_density_approximation f1s f2s e1 e2 (.numeric wc) rev 1 n [] with
    | ok d =>
      rcases h with h | h
      · subst h; simp [load_density, hmc, Except.map, Bind.bind, Except.bind]
      · subst h
        cases cd <;> simp [load_density, hmc, Except.map, Bind.bind, Except.bind]
    | error e =>
      rcases h with h | h
      · subst h; simp [load_density, hmc, Except.map, Bind.bind, Except.bind]
      · subst h
        cases cd <;> simp [load_density, hmc, Except.map, Bind.bind, Except.bind]
  · intro entry hcd hfile
    subst hcd; subst hfile
    exact ⟨rfl, fun g1 g2 => rfl⟩

/-- Claim C2, witness: a cache miss recomputes (empty data, trivially), and a
cache hit returns the stored array. -/
theorem claim_C2_fix_w :
    load_density false Option.none [] [] [] [] false 3 1
      = (MC_convex_hull_density_approximation [] [] [] [] (.numeric 1) false 1 3 []).map
          (fun d => (d, if false then some (d, 1) else Option.none))
    ∧ load_density true (some ([5], 1)) [9] [9] [1] [1] false 3 1
      = .ok ([5], some ([5], 1)) :=
  ⟨(claim_C2_fix false Option.none [] [] [] [] false 3 1).1 (Or.inl rfl),
   ((claim_C2_fix true (some ([5], 1)) [9] [9] [1] [1] false 3 1).2 ([5], 1) rfl rfl).1⟩

/-- Claim C5: with `mcruns = 1` the Monte Carlo density approximation performs
no sampling: whatever `baseSampling` is supplied, the result is exactly the
deterministic nominal `hull_density(color * width_coeff, mag, n)` of the
unshifted photometry. -/
theorem claim_C5_single_run_deterministic (f1 f2 e1 e2 : List ℚ) (w : ℚ)
    (rev : Bool) (n : ℕ) (baseSampling : List (List ℚ × List ℚ))
    (hlen : f1.length = f2.length) :
    MC_convex_hull_density_approximation f1 f2 e1 e2 (.numeric w) rev 1 n baseSampling
      = hull_density ((List.zipWith (· - ·) f1 f2).map (· * w)) (if rev then f2 else f1) n := by
  cases hh : hull_density ((List.zipWith (· - ·) f1 f2).map (· * w)) (if rev then f2 else f1) n with
  | ok t =>
    simp [MC_convex_hull_density_approximation, MC_full, MC_loop, MC_step,
      color_mag_from_filters, shape_dimension_check, hlen, hh, Bind.bind,
      Except.bind, pure, Except.pure, wcValue]
  | error e =>
    simp [MC_convex_hull_density_approximation, MC_full, MC_loop, MC_step,
      color_mag_from_filters, shape_dimension_check, hlen, hh, Bind.bind,
      Except.bind, pure, Except.pure, wcValue]

/-- Claim C5, witness: the concrete four-star photometry, evaluated on both
sides. -/
theorem claim_C5_w :
    MC_convex_hull_density_approximation f1c f2c e1c e2c (.numeric 1) false 1 3 []
      = hull_density ((List.zipWith (· - ·) f1c f2c).map (· * 1))
          (if false then f2c else f1c) 3 :=
  claim_C5_single_run_deterministic f1c f2c e1c e2c 1 false 3 [] rfl

/-- Claim C7: `verticalize_CMD` returns `(vColor, ff)` with
`vColor[i] = color[i] - ff(mag[i])` at every index, hence the round-trip
`color[i] = vColor[i] + ff(mag[i])` holds by construction, where `ff` is the
ridge interpolant it also returns. -/
theorem claim_C7_roundtrip (ext : Externals) (color mag density : List ℚ)
    (hlen : mag.length = color.length) (i : ℕ) (hi : i < color.length) :
    ((verticalize_CMD ext color mag density).1).getD i 0
      = color.getD i 0
        - interp1dEval ((verticalize_CMD ext color mag density).2) (mag.getD i 0)
    ∧ color.getD i 0
      = ((verticalize_CMD ext color mag density).1).getD i 0
        + interp1dEval ((verticalize_CMD ext color mag density).2) (mag.getD i 0) := by
  have h1 : ((verticalize_CMD ext color mag density).1).getD i 0
      = color.getD i 0
        - interp1dEval ((verticalize_CMD ext color mag density).2) (mag.getD i 0) := by
    unfold verticalize_CMD
    exact getD_zipWith_lt _ color mag i hi (hlen ▸ hi)
  exact ⟨h1, by rw [h1]; ring⟩

/-- Claim C7, witness: concrete instance with the trivial externals. -/
theorem claim_C7_w :
    ((verticalize_CMD extTrivial [1, 2] [0, 1] [1, 1]).1).getD 0 0
      = ([1, 2] : List ℚ).getD 0 0
        - interp1dEval ((verticalize_CMD extTrivial [1, 2] [0, 1] [1, 1]).2)
            (([0, 1] : List ℚ).getD 0 0)
    ∧ ([1, 2] : List ℚ).getD 0 0
      = ((verticalize_CMD extTrivial [1, 2] [0, 1] [1, 1]).1).getD 0 0
        + interp1dEval ((verticalize_CMD extTrivial [1, 2] [0, 1] [1, 1]).2)
            (([0, 1] : List ℚ).getD 0 0) :=
  claim_C7_roundtrip extTrivial [1, 2] [0, 1] [1, 1] rfl 0 (by decide)

/-- Claim C9, counterexample: a two-point cloud with three hull points
requested fails — but inside `np.argpartition` (a `ValueError` on the missing
order statistic), not with the hull's `GeometryError`: the selection step
raises before any hull is attempted. -/
theorem claim_C9_cex :
    hull_density [0, 1] [0, 0] 3 = .error .partitionBound
    ∧ (Except.error .partitionBound : Except FidErr (List ℚ)) ≠ .error .geometry :=
  ⟨by decide, by decide⟩

/-- Claim C9, amended: for every nonempty cloud with fewer points than the
requested neighbour count, `hull_density` fails with the partial-selection
index error (never silently returning a density of zero or infinity, and never
reaching the hull's geometry error). -/
theorem claim_C9_fix (X Y : List ℚ) (n : ℕ)
    (hne : X ≠ []) (hlen : X.length = Y.length) (hlt : X.length < n) :
    hull_density X Y n = .error .partitionBound := by
  cases X with
  | nil => exact absurd rfl hne
  | cons x xs =>
    cases Y with
    | nil => simp at hlen
    | cons y ys =>
      have hlen' : xs.length = ys.length := by simpa using hlen
      have hng : ¬ (n < ys.length + 1) := by
        simp only [List.length_cons] at hlt
        omega
      simp [hull_density, shape_dimension_check, mapExcept,
        instantaious_hull_density, argpartition, List.length_map,
        List.length_zip, hlen', hng, Bind.bind, Except.bind, Except.map,
        pure, Except.pure]

/-- Claim C9, witness: the two-point cloud. -/
theorem claim_C9_fix_w : hull_density [0, 1] [0, 0] 3 = .error .partitionBound :=
  claim_C9_fix [0, 1] [0, 0] 3 (by decide) (by decide) (by decide)

/-- Claim C10: `instantaious_hull_density` succeeds only on clouds with
strictly more than `n` points (`np.argpartition(distance, n)` needs index `n`
to exist), and a cloud of exactly `n` points — enough for the requested
`n`-point hull — already raises the selection error. -/
theorem claim_C10_strict_precondition :
    (∀ (r0 : ℚ × ℚ) (ri : List (ℚ × ℚ)) (n : ℕ) (v : ℚ × ℚ × List ℕ),
        instantaious_hull_density r0 ri n = .ok v → n + 1 ≤ ri.length)
    ∧ instantaious_hull_density (0, 0) [(0, 0), (1, 0), (0, 1)] 3
        = .error .partitionBound := by
  constructor
  · intro r0 ri n v h
    by_cases hc : n < ri.length
    · omega
    · exfalso
      have hlen : ¬ (n < (ri.map (sqDist r0)).length) := by
        simpa [List.length_map] using hc
      simp only [instantaious_hull_density, argpartition, Except.bind] at h
      rw [if_neg hlen] at h
      exact Except.noConfusion h
  · decide

/-- Claim C10, witness: the four-point cloud succeeds, and indeed has at least
`3 + 1` points. -/
theorem claim_C10_w : 3 + 1 ≤ ([(0, 0), (1, 0), (0, 1), (1, 1)] : List (ℚ × ℚ)).length :=
  claim_C10_strict_precondition.1 (0, 0) [(0, 0), (1, 0), (0, 1), (1, 1)] 3
    (6, 1 / 2, [0, 1, 2]) (by decide)

/-- Claim C8, counterexample: the degenerate configuration `mcruns = 0` (with
valid photometry and `nPops = 2`) does not fail at all, let alone fast with a
configuration error — the call returns two untouched accumulators. -/
theorem claim_C8_cex :
    measure_fiducial_lines extTrivial f1c f2c e1c e2c false 0 3 1 99 false
      Option.none Option.none 2 250 [] = .ok (.lines [[], []])
    ∧ ∀ e : FidErr,
        measure_fiducial_lines extTrivial f1c f2c e1c e2c false 0 3 1 99 false
          Option.none Option.none 2 250 [] ≠ .error e := by
  have h1 : measure_fiducial_lines extTrivial f1c f2c e1c e2c false 0 3 1 99 false
      Option.none Option.none 2 250 [] = .ok (.lines [[], []]) := by decide
  exact ⟨h1, fun e h => by rw [h1] at h; exact Except.noConfusion h⟩

/-- Claim C8, amended: `measure_fiducial_lines` performs no up-front
configuration validation.  With `mcruns = 0` it returns normally, for every
`nPops`, with `nPops` empty accumulators (so `nPops < 1` is not rejected
either: for `nPops = 0` the result is an empty list); a neighbour count larger
than the cloud (`convexHullPoints = 10` on 4 stars) surfaces as the
partial-selection index error raised inside the nominal density computation,
not as a configuration error. -/
theorem claim_C8_fix :
    (∀ nPops : ℕ,
      measure_fiducial_lines extTrivial f1c f2c e1c e2c false 0 3 1 99 false
        Option.none Option.none nPops 250 []
        = .ok (.lines (List.replicate nPops [])))
    ∧ measure_fiducial_lines extTrivial f1c f2c e1c e2c false 2 10 1 99 false
        Option.none Option.none 2 250 [bsZero, bsZero] = .error .partitionBound := by
  constructor
  · intro nPops
    have h : measure_fiducial_lines extTrivial f1c f2c e1c e2c false 0 3 1 99 false
        Option.none Option.none nPops 250 []
        = .ok (.lines ((List.range nPops).map (fun _ => []))) := rfl
    rw [h]
    simp [List.map_const']
  · decide

/-- Claim C3, counterexample: the `nPops = 1` branch does not feed the
accumulator the same per-run measurement sequence as the multi-population path
specialized to one population.  With two magnitude bins whose single centers
are `1` and `2` and zero ridge offsets, the specialized multi-population path
issues the single call `[[1, 2]]` while the `nPops = 1` branch issues one
broadcast call per bin, `[[1, 1], [2, 2]]`. -/
theorem claim_C3_cex :
    feedOne [[1], [2]] [0, 0] ≠ feedMulti [[1], [2]] [0, 0] 1 := by decide

/-- Claim C3, amended: in the multi-population branch each bin's centers are
sorted ascending before population assignment, so population 0 receives, in
every bin, the smallest center (plus that bin's ridge offset): its value minus
the offset is a member of the bin's centers and is below every center.  For
`nPops = 1` the pipeline instead issues one broadcast `add_measurement` call
per magnitude bin; this coincides with the multi-population path specialized
to one population exactly when there is a single magnitude bin. -/
theorem claim_C3_fix (means : List (List ℚ)) (ffm : List ℚ) (nPops : ℕ) :
    (1 ≤ nPops → ffm.length = means.length →
      ∀ j, j < means.length → means.getD j [] ≠ [] →
        ((((feedMulti means ffm nPops).getD 0 []).getD j 0 - ffm.getD j 0) ∈ means.getD j []
          ∧ ∀ c ∈ means.getD j [],
              ((feedMulti means ffm nPops).getD 0 []).getD j 0 ≤ c + ffm.getD j 0))
    ∧ (means ≠ [] → (∀ row ∈ means, row.length = 1) → ffm.length = means.length →
        (feedOne means ffm = feedMulti means ffm 1 ↔ means.length = 1)) := by
  constructor
  · intro hp hlen j hj hrow
    obtain ⟨k, hk⟩ : ∃ k, nPops = k + 1 := ⟨nPops - 1, by omega⟩
    subst hk
    have hcall : (feedMulti means ffm (k + 1)).getD 0 []
        = (((sortRowsAscending means).zip ffm).map (fun rowf => rowf.1.getD 0 0 + rowf.2)) := by
      simp [feedMulti, List.range_succ_eq_map]
    have hslen : j < (sortRowsAscending means).length := by
      simpa [sortRowsAscending] using hj
    have hflen : ffm.length = (sortRowsAscending means).length := by
      simpa [sortRowsAscending] using hlen
    have hval : ((feedMulti means ffm (k + 1)).getD 0 []).getD j 0
        = ((sortRowsAscending means).getD j []).getD 0 0 + ffm.getD j 0 := by
      rw [hcall]
      exact getD_zip_map_add _ _ 0 j hslen hflen
    have hsortj : (sortRowsAscending means).getD j []
        = (means.getD j []).insertionSort (· ≤ ·) := by
      simpa [sortRowsAscending] using
        getD_map_lt (fun cs => cs.insertionSort (· ≤ ·)) means j [] [] hj
    constructor
    · rw [hval, hsortj]
      simp only [add_sub_cancel_right]
      exact sorted_head_mem _ hrow
    · intro c hc
      rw [hval, hsortj]
      have := sorted_head_le (means.getD j []) c hc
      linarith
  · intro hne hrows hlen
    constructor
    · intro h
      have hl := congrArg List.length h
      simpa [feedOne, feedMulti] using hl
    · intro h1
      cases means with
      | nil => exact absurd rfl hne
      | cons r rs =>
        have hrs : rs = [] := by
          have : rs.length = 0 := by simpa using h1
          simpa using this
        subst hrs
        have hr1 : r.length = 1 := hrows r (by simp)
        cases r with
        | nil => simp at hr1
        | cons c cr =>
          have hcr : cr = [] := by
            have : cr.length = 0 := by simpa using hr1
            simpa using this
          subst hcr
          cases ffm with
          | nil => simp at hlen
          | cons f fs =>
            have hfs : fs = [] := by
              have : fs.length = 0 := by simpa using hlen
              simpa using this
            subst hfs
            simp [feedOne, feedMulti, sortRowsAscending, List.range_succ,
              List.insertionSort, List.orderedInsert]

/-- Claim C3, witness: two bins with unsorted centers for the sorting part,
and a single-bin single-population instance for the coincidence part. -/
theorem claim_C3_fix_w :
    ((((feedMulti [[3, 2], [5, 4]] [10, 20] 2).getD 0 []).getD 0 0
        - ([10, 20] : List ℚ).getD 0 0) ∈ ([[3, 2], [5, 4]] : List (List ℚ)).getD 0 []
      ∧ ∀ c ∈ ([[3, 2], [5, 4]] : List (List ℚ)).getD 0 [],
          ((feedMulti [[3, 2], [5, 4]] [10, 20] 2).getD 0 []).getD 0 0
            ≤ c + ([10, 20] : List ℚ).getD 0 0)
    ∧ (feedOne [[7]] [1] = feedMulti [[7]] [1] 1
        ↔ ([[7]] : List (List ℚ)).length = 1) := by
  constructor
  · exact (claim_C3_fix [[3, 2], [5, 4]] [10, 20] 2).1 (by decide) (by decide) 0
      (by decide) (by decide)
  · exact (claim_C3_fix [[7]] [1] 1).2 (by decide) (by decide) (by decide)

theorem MC_step_ok_nonauto (f1 f2 e1 e2 : List ℚ) (rev : Bool) (mcruns n : ℕ)
    (st st' : MCState) (bs : List ℚ × List ℚ) (r : ℚ)
    (hwc : st.wc = .numeric r)
    (h : MC_step f1 f2 e1 e2 rev mcruns n st bs = .ok st') :
    st'.wc = .numeric r ∧ st'.usedCoeffs = st.usedCoeffs ++ [r] := by
  unfold MC_step at h
  rw [hwc] at h
  simp only [Bind.bind, Except.bind] at h
  repeat' split at h
  all_goals
    first
      | exact absurd ‹WidthCoeff.numeric r = WidthCoeff.auto› (by simp)
      | exact Except.noConfusion h
      | (cases h; exact ⟨by simp, by simp [wcValue]⟩)



theorem MC_loop_wc_frozen (f1 f2 e1 e2 : List ℚ) (rev : Bool) (mcruns n : ℕ)
    (draws : List (List ℚ × List ℚ)) :
    ∀ (st : MCState) (r : ℚ) (res : MCState),
      st.wc = .numeric r →
      MC_loop f1 f2 e1 e2 rev mcruns n draws st = .ok res →
      ∀ x ∈ res.usedCoeffs, x ∈ st.usedCoeffs ∨ x = r := by
  induction draws with
  | nil =>
    intro st r res hwc h x hx
    simp only [MC_loop] at h
    cases h
    exact Or.inl hx
  | cons d rest ih =>
    intro st r res hwc h x hx
    simp only [MC_loop, Bind.bind, Except.bind] at h
    cases hstep : MC_step f1 f2 e1 e2 rev mcruns n st d with
    | error e => rw [hstep] at h; exact Except.noConfusion h
    | ok st1 =>
      rw [hstep] at h
      obtain ⟨hwc1, hused1⟩ :=
        MC_step_ok_nonauto f1 f2 e1 e2 rev mcruns n st st1 d r hwc hstep
      rcases ih st1 r res hwc1 h x hx with hmem | hr
      · rw [hused1] at hmem
        rcases List.mem_append.1 hmem with hA | hA
        · exact Or.inl hA
        · simp at hA
          exact Or.inr hA
      · exact Or.inr hr

theorem MC_step_ok_auto (f1 f2 e1 e2 : List ℚ) (rev : Bool) (mcruns n : ℕ)
    (st st' : MCState) (bs : List ℚ × List ℚ)
    (hwc : st.wc = .auto) (hm : 1 < mcruns)
    (h1 : f1.length = e1.length) (h2 : f2.length = e2.length)
    (h12 : f1.length = f2.length)
    (hb1 : bs.1.length = f1.length) (hb2 : bs.2.length = f2.length)
    (h : MC_step f1 f2 e1 e2 rev mcruns n st bs = .ok st') :
    st'.wc = .numeric (draw_width_coeff f1 f2 e1 e2 rev bs)
    ∧ st'.usedCoeffs = st.usedCoeffs ++ [draw_width_coeff f1 f2 e1 e2 rev bs] := by
  have he12 : e1.length = e2.length := by omega
  unfold MC_step at h
  rw [hwc] at h
  simp only [if_pos hm, shift_photometry_by_error, shape_dimension_check, h1, h2,
    Bind.bind, Except.bind, if_true, eq_self_iff_true] at h
  simp only [color_mag_from_filters, shape_dimension_check, List.length_zipWith,
    List.length_zip, h1, hb1, h2, hb2, he12, min_self, if_true, eq_self_iff_true,
    Bind.bind, Except.bind] at h
  repeat' split at h
  all_goals
    first
      | exact Except.noConfusion h
      | (cases h; exact ⟨by simp [draw_width_coeff, wcValue, *],
          by simp [draw_width_coeff, wcValue, *]⟩)

/-- Claim C4, counterexample: with `width_coeff = "auto"` and two Monte Carlo
draws, the coefficient used on the second run is still the first draw's ratio
(1), although the second draw's perturbed photometry has ratio 2/3: the
`"auto"` string is overwritten by a float on the first run and the equality
test never fires again. -/
theorem claim_C4_cex :
    MC_width_coeff_trace f1c f2c e1c e2c .auto false 2 3 [bsZero, bsShift] = .ok [1, 1]
    ∧ draw_width_coeff f1c f2c e1c e2c false bsShift = 2 / 3
    ∧ (1 : ℚ) ≠ 2 / 3 := ⟨by decide, by decide, by decide⟩

/-- Claim C4, amended: with `width_coeff = "auto"` and `mcruns > 1`, the
coefficient is computed once, on the first Monte Carlo draw, from that draw's
perturbed photometry, and every subsequent run reuses that same value: every
entry of the per-run coefficient trace equals the first draw's ratio. -/
theorem claim_C4_fix (f1 f2 e1 e2 : List ℚ) (rev : Bool) (mcruns n : ℕ)
    (draws : List (List ℚ × List ℚ)) (tr : List ℚ)
    (hm : 1 < mcruns)
    (h1 : f1.length = e1.length) (h2 : f2.length = e2.length)
    (h12 : f1.length = f2.length)
    (hbs : ∀ bs ∈ draws, bs.1.length = f1.length ∧ bs.2.length = f2.length)
    (htr : MC_width_coeff_trace f1 f2 e1 e2 .auto rev mcruns n draws = .ok tr) :
    ∀ x ∈ tr, x = draw_width_coeff f1 f2 e1 e2 rev (draws.headD ([], [])) := by
  intro x hx
  unfold MC_width_coeff_trace at htr
  cases hfull : MC_full f1 f2 e1 e2 .auto rev mcruns n draws with
  | error e => rw [hfull] at htr; exact Except.noConfusion htr
  | ok st =>
    rw [hfull] at htr
    have htr' : st.usedCoeffs = tr := by simpa [Except.map] using htr
    have he12 : e1.length = e2.length := by omega
    unfold MC_full at hfull
    simp [if_pos hm, shape_dimension_check, h1, h2, h12, he12, Bind.bind,
      Except.bind, pure, Except.pure] at hfull
    cases draws with
    | nil =>
      simp only [MC_loop] at hfull
      cases hfull
      rw [← htr'] at hx
      simp at hx
    | cons d rest =>
      simp only [MC_loop, Bind.bind, Except.bind] at hfull
      cases hstep : MC_step f1 f2 e1 e2 rev mcruns n
          ⟨Option.none, .auto, [], []⟩ d with
      | error e => rw [hstep] at hfull; exact Except.noConfusion hfull
      | ok st1 =>
        rw [hstep] at hfull
        obtain ⟨hd1, hd2⟩ := hbs d (by simp)
        obtain ⟨hwc1, hused1⟩ := MC_step_ok_auto f1 f2 e1 e2 rev mcruns n
          ⟨Option.none, .auto, [], []⟩ st1 d rfl hm h1 h2 h12 hd1 hd2 hstep
        have hx' : x ∈ st.usedCoeffs := htr' ▸ hx
        rcases MC_loop_wc_frozen f1 f2 e1 e2 rev mcruns n rest st1 _ st hwc1
            hfull x hx' with hmem | hr
        · rw [hused1] at hmem
          simpa using hmem
        · exact hr

/-- Claim C4, witness: the two-draw trace of the concrete data, whose entries
are both the first draw's ratio 1. -/
theorem claim_C4_fix_w :
    (1 : ℚ) = draw_width_coeff f1c f2c e1c e2c false ([bsZero, bsShift].headD ([], [])) :=
  claim_C4_fix f1c f2c e1c e2c false 2 3 [bsZero, bsShift] [1, 1] (by decide)
    rfl rfl rfl (by decide) (by decide) 1 (by decide)

theorem running_average_append (ts : List (List ℚ)) (t : List ℚ) :
    running_average (ts ++ [t])
      = some (match running_average ts with
          | Option.none => t
          | some d => List.zipWith (fun a b => (a + b) / 2) d t) := by
  unfold running_average
  rw [List.foldl_append]
  cases hacc : List.foldl
      (fun acc t =>
        match acc with
        | Option.none => some t
        | some d => some (List.zipWith (fun a b => (a + b) / 2) d t))
      Option.none ts with
  | none => rfl
  | some d => rfl

theorem MC_step_ok_density (f1 f2 e1 e2 : List ℚ) (rev : Bool) (mcruns n : ℕ)
    (st st' : MCState) (bs : List ℚ × List ℚ)
    (h : MC_step f1 f2 e1 e2 rev mcruns n st bs = .ok st') :
    ∃ tD, st'.runDensities = st.runDensities ++ [tD]
      ∧ st'.density = some (match st.density with
          | Option.none => tD
          | some d => List.zipWith (fun a b => (a + b) / 2) d tD) := by
  unfold MC_step at h
  simp only [Bind.bind, Except.bind] at h
  repeat' split at h
  all_goals
    first
      | exact Except.noConfusion h
      | (cases h; exact ⟨_, rfl, by simp [*]⟩)

theorem MC_loop_running_avg (f1 f2 e1 e2 : List ℚ) (rev : Bool) (mcruns n : ℕ)
    (draws : List (List ℚ × List ℚ)) :
    ∀ (st res : MCState),
      MC_loop f1 f2 e1 e2 rev mcruns n draws st = .ok res →
      st.density = running_average st.runDensities →
      res.density = running_average res.runDensities := by
  induction draws with
  | nil =>
    intro st res h hst
    simp only [MC_loop] at h
    cases h
    exact hst
  | cons d rest ih =>
    intro st res h hst
    simp only [MC_loop, Bind.bind, Except.bind] at h
    cases hstep : MC_step f1 f2 e1 e2 rev mcruns n st d with
    | error e => rw [hstep] at h; exact Except.noConfusion h
    | ok st1 =>
      rw [hstep] at h
      obtain ⟨tD, hrun, hden⟩ :=
        MC_step_ok_density f1 f2 e1 e2 rev mcruns n st st1 d hstep
      apply ih st1 res h
      rw [hden, hrun, running_average_append, hst]

/-- Claim C6: for `mcruns > 1` the returned density is exactly the source's
running-average recurrence folded over the per-run hull densities — equal to
`tDensity_1` after run 1 and to `(previous + tDensity_i)/2` elementwise after
each later run — and this recurrence is not a uniform-weight cumulative mean:
over three runs it weights the runs 1/4, 1/4, 1/2, with later runs heavier. -/
theorem claim_C6 (f1 f2 e1 e2 : List ℚ) (wc : WidthCoeff) (rev : Bool)
    (mcruns n : ℕ) (draws : List (List ℚ × List ℚ)) (d : List ℚ) (st : MCState)
    (hm : 1 < mcruns)
    (hst : MC_full f1 f2 e1 e2 wc rev mcruns n draws = .ok st)
    (hd : MC_convex_hull_density_approximation f1 f2 e1 e2 wc rev mcruns n draws = .ok d) :
    some d = running_average st.runDensities
    ∧ ∀ t1 t2 t3 : ℚ, running_average [[t1], [t2], [t3]]
        = some [t1 / 4 + t2 / 4 + t3 / 2] := by
  constructor
  · have hinv : st.density = running_average st.runDensities := by
      have hst' := hst
      unfold MC_full at hst'
      simp only [Bind.bind, Except.bind] at hst'
      repeat' split at hst'
      all_goals
        first
          | exact Except.noConfusion hst'
          | exact MC_loop_running_avg f1 f2 e1 e2 rev mcruns n _ _ _ hst' rfl
    unfold MC_convex_hull_density_approximation at hd
    rw [hst] at hd
    simp only [Bind.bind, Except.bind] at hd
    cases hdd : st.density with
    | none => rw [hdd] at hd; exact Except.noConfusion hd
    | some dv =>
      rw [hdd] at hd
      cases hd
      rw [← hdd]
      exact hinv
  · intro t1 t2 t3
    simp only [running_average, List.foldl, List.zipWith]
    norm_num
    ring


/-- Claim C6, witness: two concrete runs with per-run densities `[1,1,1,1]`
and `[1,1,1,1/4]` fold to `[1,1,1,5/8]`. -/
theorem claim_C6_w :
    some [1, 1, 1, 5 / 8] = running_average [[1, 1, 1, 1], [1, 1, 1, 1 / 4]]
    ∧ ∀ t1 t2 t3 : ℚ, running_average [[t1], [t2], [t3]]
        = some [t1 / 4 + t2 / 4 + t3 / 2] :=
  claim_C6 f1c f2c e1c e2c (.numeric 1) false 2 3 [bsZero, bsShift] [1, 1, 1, 5 / 8]
    ⟨some [1, 1, 1, 5 / 8], .numeric 1, [1, 1], [[1, 1, 1, 1], [1, 1, 1, 1 / 4]]⟩
    (by decide) (by decide) (by decide)

end Fidanka
